import Mathlib

/-!
Verification of the upstream-cluster management core (pkg/types/upstream.go)
against its natural-language specification.

The Go file is mostly interface contracts; the executable parts
(SortedStringSetType / InitSet, RegisterConnPoolFactory) are embedded
directly from the source.  Implementations of the interfaces (HostSet,
ClusterSnapshot, Resource, LoadBalancer, ClusterManager) are not part of
the given source tree, so they are modelled from the specification text,
as marked in each doc comment.
-/

set_option maxHeartbeats 1000000

namespace Upstream

/-- A host (upstream endpoint), from the Host/HostInfo interfaces:
address string, metadata (ordered string-to-string mapping), weight,
and the mutable health-flag bitmask. -/
structure HostM where
  addressString : String
  metadata : List (String × String)
  weight : Nat
  healthFlag : Nat
  deriving DecidableEq, Repr

/-- FAILED_ACTIVE_HC health-flag bit (0x1), from the source constants. -/
def FAILED_ACTIVE_HC : Nat := 0x1

/-- FAILED_OUTLIER_CHECK health-flag bit (0x2), from the source constants. -/
def FAILED_OUTLIER_CHECK : Nat := 0x2

/-- Modelled from the spec: Health() is true iff the health-flag bitmask
is zero (the Host interface only declares Health; its body is not in the
source tree). -/
def Health (h : HostM) : Bool := h.healthFlag == 0

/-- Modelled from the spec: the HostSet membership container (the HostSet
interface body is not in the source tree).  An ordered sequence of hosts,
unique by address. -/
structure HostSetM where
  hosts : List HostM
  deriving DecidableEq, Repr

/-- The list of addresses currently in a host list. -/
def addressesOf (l : List HostM) : List String := l.map (fun h => h.addressString)

/-- Modelled from the spec: helper keeping, per address, only the first
host carrying it (the data-model invariant says no two entries share an
address at any observable instant); `seen` accumulates addresses already
emitted. -/
def dedupByAddressAux : List HostM → List String → List HostM
  | [], _ => []
  | h :: rest, seen =>
    if h.addressString ∈ seen then dedupByAddressAux rest seen
    else h :: dedupByAddressAux rest (h.addressString :: seen)

/-- Modelled from the spec: deduplicate a host list by address string,
keeping first occurrences. -/
def dedupByAddress (l : List HostM) : List HostM := dedupByAddressAux l []

/-- Modelled from the spec: UpdateHosts replaces the full membership; the
unique-by-address invariant is maintained by deduplicating by address. -/
def UpdateHosts (_s : HostSetM) (newHosts : List HostM) : HostSetM :=
  ⟨dedupByAddress newHosts⟩

/-- Modelled from the spec: RemoveHosts removes members whose address
string occurs in the given list. -/
def RemoveHosts (s : HostSetM) (addrs : List String) : HostSetM :=
  ⟨s.hosts.filter (fun h => !(addrs.contains h.addressString))⟩

/-- Hosts() is the full current membership. -/
def Hosts (s : HostSetM) : List HostM := s.hosts

/-- Modelled from the spec: HealthyHosts() is the subset of Hosts() whose
Health() is true. -/
def HealthyHosts (s : HostSetM) : List HostM := s.hosts.filter Health

/-- A HostSet operation: the two membership mutators of the HostSet
interface. -/
inductive HSOp where
  | update (newHosts : List HostM)
  | remove (addrs : List String)
  deriving DecidableEq, Repr

/-- Apply one HostSet operation. -/
def applyHSOp (s : HostSetM) : HSOp → HostSetM
  | HSOp.update newHosts => UpdateHosts s newHosts
  | HSOp.remove addrs => RemoveHosts s addrs

/-- Apply a finite sequence of HostSet operations, in order. -/
def applyHSOps (s : HostSetM) : List HSOp → HostSetM
  | [] => s
  | op :: rest => applyHSOps (applyHSOp s op) rest

/-- The unique-by-address invariant on a host list. -/
def AddrNodup (l : List HostM) : Prop := (addressesOf l).Nodup

instance (l : List HostM) : Decidable (AddrNodup l) := by
  unfold AddrNodup; infer_instance

/-!
Cluster / snapshot trace model, for the snapshot-isolation property.
-/

/-- Modelled from the spec: a cluster state together with its outstanding
snapshots (the ClusterSnapshot and Cluster interface bodies are not in the
source tree).  A snapshot is an immutable copy of the membership at
acquisition time, tagged by a reference id; `nextId` is the next fresh id.
Membership changes swap in a new published membership and never touch the
outstanding snapshot entries. -/
structure ClusterStateM where
  hostSet : HostSetM
  snapshots : List (Nat × List HostM)
  nextId : Nat
  deriving DecidableEq, Repr

/-- A cluster-level operation: membership mutators plus snapshot
acquisition (GetClusterSnapshot) and release (PutClusterSnapshot). -/
inductive CMOp where
  | update (newHosts : List HostM)
  | remove (addrs : List String)
  | acquire
  | release (id : Nat)
  deriving DecidableEq, Repr

/-- Modelled from the spec: one step of the cluster state machine.
GetClusterSnapshot copies the current membership into a new snapshot
entry; UpdateHosts / RemoveHosts replace the published membership without
touching existing snapshots; PutClusterSnapshot drops the entry. -/
def stepCM (s : ClusterStateM) : CMOp → ClusterStateM
  | CMOp.update newHosts =>
    { s with hostSet := UpdateHosts s.hostSet newHosts }
  | CMOp.remove addrs =>
    { s with hostSet := RemoveHosts s.hostSet addrs }
  | CMOp.acquire =>
    { s with snapshots := s.snapshots ++ [(s.nextId, s.hostSet.hosts)],
             nextId := s.nextId + 1 }
  | CMOp.release id =>
    { s with snapshots := s.snapshots.filter (fun p => p.1 ≠ id) }

/-- Apply a finite sequence of cluster operations, in order. -/
def applyCMOps (s : ClusterStateM) : List CMOp → ClusterStateM
  | [] => s
  | op :: rest => applyCMOps (stepCM s op) rest

/-- The membership a held snapshot observes: the HostSet().Hosts() view of
the snapshot with the given id, if it is outstanding. -/
def snapView (s : ClusterStateM) (id : Nat) : Option (List HostM) :=
  (s.snapshots.find? (fun p => p.1 == id)).map (fun p => p.2)

/-- Snapshot ids handed out so far are below `nextId`. -/
def FreshIds (s : ClusterStateM) : Prop :=
  ∀ p ∈ s.snapshots, p.1 < s.nextId

instance (s : ClusterStateM) : Decidable (FreshIds s) := by
  unfold FreshIds; infer_instance

/-!
Resource counters (circuit breaking).
-/

/-- Modelled from the spec: a Resource counter (the Resource interface body
is not in the source tree): `current` (atomic, kept non-negative) and the
configured ceiling `max`. -/
structure ResourceM where
  current : Int
  maxv : Nat
  deriving DecidableEq, Repr

/-- Modelled from the spec: CanCreate() returns current < max, or true if
max == 0 (unbounded). -/
def CanCreate (r : ResourceM) : Bool := r.maxv == 0 || r.current < (r.maxv : Int)

/-- Modelled from the spec: Increase() increments current. -/
def Increase (r : ResourceM) : ResourceM := { r with current := r.current + 1 }

/-- Modelled from the spec: Decrease() decrements current, maintaining the
data-model invariant that current never goes negative. -/
def Decrease (r : ResourceM) : ResourceM :=
  if 0 < r.current then { r with current := r.current - 1 } else r

/-- Max() exposes the configured ceiling. -/
def Max (r : ResourceM) : Nat := r.maxv

/-- A Resource operation. -/
inductive ResOp where
  | inc
  | dec
  deriving DecidableEq, Repr

/-- Apply one Resource operation. -/
def applyResOp (r : ResourceM) : ResOp → ResourceM
  | ResOp.inc => Increase r
  | ResOp.dec => Decrease r

/-- Apply a finite sequence of Resource operations, in order. -/
def applyResOps (r : ResourceM) : List ResOp → ResourceM
  | [] => r
  | op :: rest => applyResOps (applyResOp r op) rest

/-- n successive Increase() calls. -/
def increaseN (r : ResourceM) : Nat → ResourceM
  | 0 => r
  | n + 1 => increaseN (Increase r) n

/-!
Subset load balancing: matching, fallback, selection.
-/

/-- Look up a key in an ordered string-to-string mapping (metadata or
metadata-match criteria), first binding wins. -/
def lookupStr (m : List (String × String)) (k : String) : Option String :=
  (m.find? (fun p => p.1 == k)).map (fun p => p.2)

/-- Modelled from the spec: a host belongs to the subset of one SubsetKeys
dimension iff its metadata holds, for every key of the dimension, exactly
the value the criteria request for that key. -/
def hostMatchesDim (h : HostM) (criteria : List (String × String))
    (dim : List String) : Bool :=
  dim.all (fun k =>
    match lookupStr criteria k with
    | some v => lookupStr h.metadata k == some v
    | none => false)

/-- FallBackPolicy enum from the spec: NoFallback, AnyEndpoint,
DefaultSubset. -/
inductive FallBackPolicy where
  | NoFallback
  | AnyEndpoint
  | DefaultSubset
  deriving DecidableEq, Repr

/-- Modelled from the spec: LBSubsetInfo together with the snapshot's host
set — enablement flag, fallback policy, the DefaultSubset metadata, and
the configured SubsetKeys dimensions (each a list of metadata key names). -/
structure SnapshotM where
  hostSet : HostSetM
  subsetEnabled : Bool
  fallbackPolicy : FallBackPolicy
  defaultSubsetMeta : List (String × String)
  subsetKeySets : List (List String)
  deriving DecidableEq, Repr

/-- Modelled from the spec: the healthy hosts matching the criteria under
some configured SubsetKeys dimension (the metadata-narrowed subset). -/
def narrowedHosts (snap : SnapshotM) (criteria : List (String × String)) :
    List HostM :=
  (HealthyHosts snap.hostSet).filter
    (fun h => snap.subsetKeySets.any (fun dim => hostMatchesDim h criteria dim))

/-- Modelled from the spec: IsExistsHosts(criteria) reports whether the
metadata-narrowed subset of healthy hosts is non-empty. -/
def IsExistsHosts (snap : SnapshotM) (criteria : List (String × String)) :
    Bool :=
  !(narrowedHosts snap criteria).isEmpty

/-- Modelled from the spec: a host is in the DefaultSubset iff its
metadata holds exactly the value the DefaultSubset metadata fixes for each
of its keys; the DefaultSubset host list is the healthy hosts in it. -/
def defaultSubsetHostList (snap : SnapshotM) : List HostM :=
  (HealthyHosts snap.hostSet).filter
    (fun h => snap.defaultSubsetMeta.all
      (fun p => lookupStr h.metadata p.1 == some p.2))

/-- Modelled from the spec: the candidate set handed to the base selection
algorithm.  Subset disabled: the full HealthyHosts().  Enabled: the
metadata-narrowed subset when non-empty, else the FallbackPolicy decides —
NoFallback yields none (selection returns the none sentinel), AnyEndpoint
the full HealthyHosts(), DefaultSubset the DefaultSubset's host list. -/
def candidateSet (snap : SnapshotM) (criteria : List (String × String)) :
    Option (List HostM) :=
  if !snap.subsetEnabled then some (HealthyHosts snap.hostSet)
  else if !(narrowedHosts snap criteria).isEmpty then
    some (narrowedHosts snap criteria)
  else
    match snap.fallbackPolicy with
    | FallBackPolicy.NoFallback => none
    | FallBackPolicy.AnyEndpoint => some (HealthyHosts snap.hostSet)
    | FallBackPolicy.DefaultSubset => some (defaultSubsetHostList snap)

/-!
Round-robin base selection.
-/

/-- Modelled from the spec: the RoundRobin balancer's per-caller cursor. -/
structure RRState where
  idx : Nat
  deriving DecidableEq, Repr

/-- Modelled from the spec: RoundRobin ChooseHost cycles through the
candidate host list in list order, advancing the cursor by one per call;
with no candidate it returns the none sentinel. -/
def chooseHostRR (hosts : List HostM) (st : RRState) : Option HostM × RRState :=
  if hosts.isEmpty then (none, st)
  else (hosts.get? (st.idx % hosts.length), ⟨st.idx + 1⟩)

/-- n consecutive ChooseHost calls by one caller, returning the picked
hosts in call order. -/
def chooseSeqRR (hosts : List HostM) (st : RRState) : Nat → List (Option HostM)
  | 0 => []
  | n + 1 =>
    let r := chooseHostRR hosts st
    r.1 :: chooseSeqRR hosts r.2 n

/-- Modelled from the spec: LoadBalancer.ChooseHost for a RoundRobin
cluster — the candidate set (after any subset narrowing / fallback) is
handed to the RoundRobin base algorithm; the none sentinel when the
candidate set is none. -/
def chooseHostCluster (snap : SnapshotM) (criteria : List (String × String))
    (st : RRState) : Option HostM × RRState :=
  match candidateSet snap criteria with
  | none => (none, st)
  | some hosts => chooseHostRR hosts st

/-- n consecutive cluster-level ChooseHost calls by one caller. -/
def chooseSeqCluster (snap : SnapshotM) (criteria : List (String × String))
    (st : RRState) : Nat → List (Option HostM)
  | 0 => []
  | n + 1 =>
    let r := chooseHostCluster snap criteria st
    r.1 :: chooseSeqCluster snap criteria r.2 n

/-!
ClusterManager registry: RemovePrimaryCluster.
-/

/-- ClusterExist(name): non-blocking existence check on the registry,
modelled as the list of registered cluster names. -/
def ClusterExist (registry : List String) (name : String) : Bool :=
  registry.contains name

/-- Modelled from the spec: RemovePrimaryCluster(names...) processes every
given name — a name present in the registry is removed, an unknown name
contributes a NotFound error; errors are collected over all names, never
short-circuiting.  Returns the new registry and the list of names that
produced a NotFound error. -/
def RemovePrimaryCluster : List String → List String → List String × List String
  | registry, [] => (registry, [])
  | registry, n :: rest =>
    if registry.contains n then
      RemovePrimaryCluster (registry.filter (fun m => m ≠ n)) rest
    else
      ((RemovePrimaryCluster registry rest).1,
        n :: (RemovePrimaryCluster registry rest).2)

/-!
SortedStringSetType / InitSet, embedded from the source.
-/

/-- SortedStringSetType from the source: a sorted key collection with no
duplicate. -/
structure SortedStringSetType where
  keys : List String
  deriving DecidableEq, Repr

/-- The dedup loop of InitSet from the source: each input key is appended
to `keys` iff it is not already there (first occurrences kept, in input
order); `keys` is the accumulator of the Go loop. -/
def initSetDedup : List String → List String → List String
  | [], keys => keys
  | keyInput :: rest, keys =>
    if keys.contains keyInput then initSetDedup rest keys
    else initSetDedup rest (keys ++ [keyInput])

/-- InitSet from the source: deduplicate the input, then sort.Sort with
Less being lexicographic string comparison.  Go's sort.Sort produces a
permutation sorted under Less; on the duplicate-free list that the dedup
loop yields, every such permutation is the unique ascending arrangement,
so any correct sort embeds it faithfully. -/
def InitSet (input : List String) : SortedStringSetType :=
  ⟨List.insertionSort (fun a b => a ≤ b) (initSetDedup input [])⟩

/-- Keys() from the source: the keys in the collection. -/
def SortedStringSetType.Keys (ss : SortedStringSetType) : List String := ss.keys

/-- Remove adjacent duplicates (the `unique` half of the design notes'
sort-then-unique construction). -/
def uniqueAdj : List String → List String
  | [] => []
  | [a] => [a]
  | a :: b :: rest =>
    if a = b then uniqueAdj (b :: rest) else a :: uniqueAdj (b :: rest)

/-- The design notes' recommended construction: sort the input, then
remove adjacent duplicates. -/
def sortThenUnique (input : List String) : List String :=
  uniqueAdj (List.insertionSort (fun a b => a ≤ b) input)

/-!
Connection-pool factory registry, embedded from the source.
-/

/-- The protocol type (a string in the wider repository). -/
abbrev Protocol := String

/-- The ConnPoolFactories map state.  In the source it is a process-wide
`map[Protocol]bool`, initialised empty; here the map state is passed
explicitly, as a list of key/value entries where the first entry for a key
is its current value. -/
abbrev ConnPoolFactoriesMap := List (Protocol × Bool)

/-- The initial (empty) ConnPoolFactories map made by init(). -/
def initConnPoolFactories : ConnPoolFactoriesMap := []

/-- Go map lookup: the value for a key, if present. -/
def mapLookup (m : ConnPoolFactoriesMap) (p : Protocol) : Option Bool :=
  (List.find? (fun e => e.1 = p) m).map (fun e => e.2)

/-- RegisterConnPoolFactory from the source: the Go map assignment
`ConnPoolFactories[protocol] = registered`, which overwrites any earlier
entry for the protocol. -/
def RegisterConnPoolFactory (m : ConnPoolFactoriesMap) (protocol : Protocol)
    (registered : Bool) : ConnPoolFactoriesMap :=
  (protocol, registered) :: m.filter (fun e => e.1 ≠ protocol)

/-!
Helper lemmas.
-/

theorem find?_filter_of_imp {α : Type} (p q : α → Bool)
    (himp : ∀ x, p x = true → q x = true) :
    ∀ l : List α, (l.filter q).find? p = l.find? p := by
  intro l
  induction l with
  | nil => rfl
  | cons x xs ih =>
    cases hq : q x with
    | true =>
      rw [List.filter_cons_of_pos hq]
      cases hp : p x with
      | true =>
        rw [List.find?_cons_of_pos _ hp, List.find?_cons_of_pos _ hp]
      | false =>
        rw [List.find?_cons_of_neg _ (by simp [hp]),
          List.find?_cons_of_neg _ (by simp [hp]), ih]
    | false =>
      have hp : p x = false := by
        cases hpx : p x with
        | false => rfl
        | true => rw [himp x hpx] at hq; exact absurd hq (by simp)
      rw [List.filter_cons_of_neg (by simp [hq]), ih,
        List.find?_cons_of_neg _ (by simp [hp])]

theorem mem_initSetDedup :
    ∀ (l keys : List String) (x : String),
      x ∈ initSetDedup l keys ↔ x ∈ l ∨ x ∈ keys := by
  intro l
  induction l with
  | nil => intro keys x; simp [initSetDedup]
  | cons k rest ih =>
    intro keys x
    rw [initSetDedup]
    by_cases hc : keys.contains k = true
    · rw [if_pos hc, ih]
      have hk : k ∈ keys := by simpa using hc
      constructor
      · rintro (h | h)
        · exact Or.inl (List.mem_cons_of_mem _ h)
        · exact Or.inr h
      · rintro (h | h)
        · rcases List.mem_cons.1 h with he | ht
          · exact Or.inr (he ▸ hk)
          · exact Or.inl ht
        · exact Or.inr h
    · rw [if_neg hc, ih]
      simp only [List.mem_cons, List.mem_append, List.mem_singleton]
      tauto

theorem nodup_initSetDedup :
    ∀ (l keys : List String), keys.Nodup → (initSetDedup l keys).Nodup := by
  intro l
  induction l with
  | nil => intro keys h; simpa [initSetDedup] using h
  | cons k rest ih =>
    intro keys h
    rw [initSetDedup]
    by_cases hc : keys.contains k = true
    · rw [if_pos hc]; exact ih keys h
    · rw [if_neg hc]
      apply ih
      rw [List.nodup_append]
      refine ⟨h, List.nodup_singleton k, ?_⟩
      intro a ha hb
      rw [List.mem_singleton] at hb
      subst hb
      exact (by simpa using hc : a ∉ keys) ha

theorem mem_uniqueAdj (l : List String) :
    ∀ x : String, x ∈ uniqueAdj l ↔ x ∈ l := by
  induction l with
  | nil => intro x; simp [uniqueAdj]
  | cons a t ih =>
    cases t with
    | nil => intro x; simp [uniqueAdj]
    | cons b rest =>
      intro x
      by_cases hab : a = b
      · rw [uniqueAdj, if_pos hab, ih x, hab]
        simp only [List.mem_cons]
        tauto
      · rw [uniqueAdj, if_neg hab]
        simp [List.mem_cons, ih x]

theorem sorted_lt_uniqueAdj :
    ∀ l : List String, List.Sorted (· ≤ ·) l →
      List.Sorted (· < ·) (uniqueAdj l) := by
  intro l
  induction l with
  | nil => intro _; simp [uniqueAdj]
  | cons a t ih =>
    intro hl
    cases t with
    | nil => simp [uniqueAdj]
    | cons b rest =>
      have hab : a ≤ b := (List.sorted_cons.1 hl).1 b (List.mem_cons_self _ _)
      have ht : List.Sorted (· ≤ ·) (b :: rest) := (List.sorted_cons.1 hl).2
      by_cases heq : a = b
      · rw [uniqueAdj, if_pos heq]; exact ih ht
      · rw [uniqueAdj, if_neg heq]
        rw [List.sorted_cons]
        refine ⟨?_, ih ht⟩
        intro x hx
        have hxt : x ∈ b :: rest := (mem_uniqueAdj _ x).1 hx
        have hbx : b ≤ x := by
          rcases List.mem_cons.1 hxt with h | h
          · rw [h]
          · exact (List.sorted_cons.1 ht).1 x h
        exact lt_of_lt_of_le (lt_of_le_of_ne hab heq) hbx

/-!
Claim theorems.
-/

/-- C5: for every input list of strings, InitSet(input).Keys() is strictly
lexicographically sorted ascending, has no duplicate, contains a string
iff the input does, and equals the sort-then-unique construction
recommended by the design notes. -/
theorem initSet_correct (input : List String) :
    List.Sorted (· < ·) (InitSet input).Keys
    ∧ (InitSet input).Keys.Nodup
    ∧ (∀ s : String, s ∈ (InitSet input).Keys ↔ s ∈ input)
    ∧ (InitSet input).Keys = sortThenUnique input := by
  have hdn : (initSetDedup input []).Nodup :=
    nodup_initSetDedup input [] List.nodup_nil
  have hdm : ∀ x, x ∈ initSetDedup input [] ↔ x ∈ input := by
    intro x
    rw [mem_initSetDedup]
    simp
  have hperm : (InitSet input).Keys.Perm (initSetDedup input []) :=
    List.perm_insertionSort _ _
  have hsortle : List.Sorted (· ≤ ·) (InitSet input).Keys :=
    List.sorted_insertionSort _ _
  have hnd : (InitSet input).Keys.Nodup := hperm.nodup_iff.2 hdn
  have hmem : ∀ x, x ∈ (InitSet input).Keys ↔ x ∈ input := by
    intro x
    rw [hperm.mem_iff, hdm]
  have hult : List.Sorted (· < ·) (sortThenUnique input) :=
    sorted_lt_uniqueAdj _ (List.sorted_insertionSort _ _)
  have humem : ∀ x, x ∈ sortThenUnique input ↔ x ∈ input := by
    intro x
    rw [sortThenUnique, mem_uniqueAdj, (List.perm_insertionSort _ _).mem_iff]
  have hund : (sortThenUnique input).Nodup :=
    List.Pairwise.imp (fun hlt => ne_of_lt hlt) hult
  have hperm2 : (InitSet input).Keys.Perm (sortThenUnique input) := by
    apply List.perm_of_nodup_nodup_toFinset_eq hnd hund
    apply Finset.ext
    intro a
    simp only [List.mem_toFinset]
    rw [hmem, humem]
  refine ⟨hsortle.lt_of_le hnd, hnd, hmem, ?_⟩
  exact List.eq_of_perm_of_sorted hperm2 hsortle
    (List.Pairwise.imp (fun hlt => le_of_lt hlt) hult)

/-- C10: RegisterConnPoolFactory stores the given boolean for the
protocol, overwriting any earlier registration (last registration wins);
a protocol registered with false stays a key of the map mapped to false. -/
theorem registerConnPoolFactory_stores_flag :
    (∀ (m : ConnPoolFactoriesMap) (p : Protocol) (b : Bool),
        mapLookup (RegisterConnPoolFactory m p b) p = some b)
    ∧ (∀ (m : ConnPoolFactoriesMap) (p q : Protocol) (b : Bool), q ≠ p →
        mapLookup (RegisterConnPoolFactory m p b) q = mapLookup m q)
    ∧ (∀ (m : ConnPoolFactoriesMap) (p : Protocol) (b1 b2 : Bool),
        mapLookup
          (RegisterConnPoolFactory (RegisterConnPoolFactory m p b1) p b2) p
          = some b2)
    ∧ (∀ (m : ConnPoolFactoriesMap) (p : Protocol),
        mapLookup (RegisterConnPoolFactory m p false) p = some false) := by
  have hself : ∀ (m : ConnPoolFactoriesMap) (p : Protocol) (b : Bool),
      mapLookup (RegisterConnPoolFactory m p b) p = some b := by
    intro m p b
    unfold mapLookup RegisterConnPoolFactory
    rw [List.find?_cons_of_pos _ (by simp)]
    rfl
  have hother : ∀ (m : ConnPoolFactoriesMap) (p q : Protocol) (b : Bool),
      q ≠ p → mapLookup (RegisterConnPoolFactory m p b) q = mapLookup m q := by
    intro m p q b hqp
    unfold mapLookup RegisterConnPoolFactory
    rw [List.find?_cons_of_neg _ (by simp [Ne.symm hqp])]
    rw [find?_filter_of_imp]
    intro x hx
    simp only [decide_eq_true_eq] at hx ⊢
    rw [hx]
    exact hqp
  exact ⟨hself, hother, fun m p b1 b2 => hself _ p b2, fun m p => hself m p false⟩

/-- C10 witness: concrete registrations exercising each conjunct,
including the preserved-lookup part with its inequality hypothesis. -/
theorem registerConnPoolFactory_stores_flag_witness :
    mapLookup (RegisterConnPoolFactory initConnPoolFactories "sofa" true)
        "sofa" = some true
    ∧ mapLookup
        (RegisterConnPoolFactory [("http2", true)] "sofa" false) "http2"
        = mapLookup [(("http2" : Protocol), true)] "http2"
    ∧ mapLookup
        (RegisterConnPoolFactory
          (RegisterConnPoolFactory initConnPoolFactories "sofa" true)
          "sofa" false) "sofa" = some false
    ∧ mapLookup (RegisterConnPoolFactory initConnPoolFactories "dubbo" false)
        "dubbo" = some false :=
  ⟨registerConnPoolFactory_stores_flag.1 initConnPoolFactories "sofa" true,
   registerConnPoolFactory_stores_flag.2.1 [("http2", true)] "sofa" "http2"
     false (by decide),
   registerConnPoolFactory_stores_flag.2.2.1 initConnPoolFactories "sofa"
     true false,
   registerConnPoolFactory_stores_flag.2.2.2 initConnPoolFactories "dubbo"⟩

theorem dedupByAddressAux_not_seen :
    ∀ (l : List HostM) (seen : List String) (a : String),
      a ∈ addressesOf (dedupByAddressAux l seen) → a ∉ seen := by
  intro l
  induction l with
  | nil =>
    intro seen a h
    simp [dedupByAddressAux, addressesOf] at h
  | cons h rest ih =>
    intro seen a hmem
    rw [dedupByAddressAux] at hmem
    by_cases hs : h.addressString ∈ seen
    · rw [if_pos hs] at hmem
      exact ih seen a hmem
    · rw [if_neg hs] at hmem
      have hmem' : a = h.addressString
          ∨ a ∈ addressesOf (dedupByAddressAux rest (h.addressString :: seen)) := by
        simpa [addressesOf] using hmem
      rcases hmem' with he | hm
      · rw [he]; exact hs
      · have hni := ih _ a hm
        intro hcur
        exact hni (List.mem_cons_of_mem _ hcur)

theorem dedupByAddressAux_nodup :
    ∀ (l : List HostM) (seen : List String),
      (addressesOf (dedupByAddressAux l seen)).Nodup := by
  intro l
  induction l with
  | nil => intro seen; simp [dedupByAddressAux, addressesOf]
  | cons h rest ih =>
    intro seen
    rw [dedupByAddressAux]
    by_cases hs : h.addressString ∈ seen
    · rw [if_pos hs]; exact ih seen
    · rw [if_neg hs]
      have hgoal : (h.addressString
          :: addressesOf (dedupByAddressAux rest (h.addressString :: seen))).Nodup := by
        rw [List.nodup_cons]
        constructor
        · intro hmem
          exact dedupByAddressAux_not_seen rest _ _ hmem
            (List.mem_cons_self _ _)
        · exact ih _
      simpa [addressesOf] using hgoal

theorem addrNodup_removeHosts (s : HostSetM) (addrs : List String)
    (h : AddrNodup s.hosts) : AddrNodup (RemoveHosts s addrs).hosts := by
  have hsub : (RemoveHosts s addrs).hosts.Sublist s.hosts :=
    List.filter_sublist _
  unfold AddrNodup addressesOf
  exact List.Nodup.sublist (List.Sublist.map _ hsub) h

/-- C2: for every HostSet satisfying the unique-by-address invariant and
every finite sequence of UpdateHosts / RemoveHosts operations, Hosts()
never contains two entries with the same AddressString(). -/
theorem hostSet_address_unique (s : HostSetM) (ops : List HSOp)
    (hinit : AddrNodup s.hosts) :
    List.Pairwise (fun h1 h2 => h1.addressString ≠ h2.addressString)
      (Hosts (applyHSOps s ops)) := by
  have key : ∀ (ops' : List HSOp) (t : HostSetM), AddrNodup t.hosts →
      AddrNodup (applyHSOps t ops').hosts := by
    intro ops'
    induction ops' with
    | nil => intro t ht; exact ht
    | cons op rest ih =>
      intro t ht
      rw [applyHSOps]
      apply ih
      cases op with
      | update newHosts => exact dedupByAddressAux_nodup newHosts []
      | remove addrs => exact addrNodup_removeHosts t addrs ht
  have hk := key ops s hinit
  unfold AddrNodup addressesOf at hk
  rw [List.Nodup, List.pairwise_map] at hk
  exact hk

/-- C2 witness: from an empty HostSet, an update introducing a duplicated
address followed by a removal still yields pairwise-distinct addresses. -/
theorem hostSet_address_unique_witness :
    List.Pairwise (fun h1 h2 => h1.addressString ≠ h2.addressString)
      (Hosts (applyHSOps ⟨[]⟩
        [HSOp.update [⟨"127.0.0.1:80", [], 1, 0⟩, ⟨"127.0.0.1:81", [], 1, 0⟩,
          ⟨"127.0.0.1:80", [], 2, 0⟩],
         HSOp.remove ["127.0.0.1:81"]])) :=
  hostSet_address_unique ⟨[]⟩
    [HSOp.update [⟨"127.0.0.1:80", [], 1, 0⟩, ⟨"127.0.0.1:81", [], 1, 0⟩,
      ⟨"127.0.0.1:80", [], 2, 0⟩],
     HSOp.remove ["127.0.0.1:81"]] (by decide)

/-- C3: every element of HealthyHosts() is an element of Hosts(); a host
of Hosts() is in HealthyHosts() iff its HealthFlag() equals zero; and
Health() is true iff the health-flag bitmask is zero. -/
theorem healthyHosts_characterization (s : HostSetM) :
    (∀ h ∈ HealthyHosts s, h ∈ Hosts s)
    ∧ (∀ h ∈ Hosts s, (h ∈ HealthyHosts s ↔ h.healthFlag = 0))
    ∧ (∀ h : HostM, Health h = true ↔ h.healthFlag = 0) := by
  refine ⟨?_, ?_, ?_⟩
  · intro h hh
    exact List.mem_of_mem_filter hh
  · intro h hh
    constructor
    · intro hmem
      have := (List.mem_filter.1 hmem).2
      simpa [Health] using this
    · intro hf
      exact List.mem_filter.2 ⟨hh, by simp [Health, hf]⟩
  · intro h
    simp [Health]

/-- C3 witness: in a two-host set with one zero flag and one
FAILED_ACTIVE_HC flag, the healthy host is in HealthyHosts() iff its flag
is zero. -/
theorem healthyHosts_characterization_witness :
    (⟨"10.0.0.1:80", [], 1, 0⟩ : HostM)
        ∈ HealthyHosts ⟨[⟨"10.0.0.1:80", [], 1, 0⟩, ⟨"10.0.0.2:80", [], 1, 1⟩]⟩
      ↔ (⟨"10.0.0.1:80", [], 1, 0⟩ : HostM).healthFlag = 0 :=
  (healthyHosts_characterization
      ⟨[⟨"10.0.0.1:80", [], 1, 0⟩, ⟨"10.0.0.2:80", [], 1, 1⟩]⟩).2.1
    ⟨"10.0.0.1:80", [], 1, 0⟩ (by decide)

theorem increaseN_spec :
    ∀ (n : Nat) (r : ResourceM),
      (increaseN r n).current = r.current + n
      ∧ (increaseN r n).maxv = r.maxv := by
  intro n
  induction n with
  | zero => intro r; simp [increaseN]
  | succ n ih =>
    intro r
    rw [increaseN]
    rcases ih (Increase r) with ⟨h1, h2⟩
    constructor
    · rw [h1]; simp only [Increase]; omega
    · rw [h2]; rfl

/-- C4: from current = 0 and max = M > 0, after M Increase() calls
CanCreate() is false; one further Decrease() makes it true again; current
stays non-negative under every Increase/Decrease sequence; and max = 0
means CanCreate() is true in every state. -/
theorem resource_counter_semantics :
    (∀ M : Nat, 0 < M → CanCreate (increaseN ⟨0, M⟩ M) = false)
    ∧ (∀ M : Nat, 0 < M → CanCreate (Decrease (increaseN ⟨0, M⟩ M)) = true)
    ∧ (∀ (r : ResourceM) (ops : List ResOp),
        0 ≤ r.current → 0 ≤ (applyResOps r ops).current)
    ∧ (∀ r : ResourceM, r.maxv = 0 → CanCreate r = true) := by
  have hN : ∀ M : Nat, (increaseN ⟨0, M⟩ M).current = (M : Int)
      ∧ (increaseN ⟨0, M⟩ M).maxv = M := by
    intro M
    rcases increaseN_spec M ⟨0, M⟩ with ⟨h1, h2⟩
    exact ⟨by rw [h1]; simp, h2⟩
  refine ⟨?_, ?_, ?_, ?_⟩
  · intro M hM
    rcases hN M with ⟨h1, h2⟩
    have hne : M ≠ 0 := by omega
    simp [CanCreate, h1, h2, hne]
  · intro M hM
    rcases hN M with ⟨h1, h2⟩
    have hpos : 0 < (increaseN ⟨0, M⟩ M).current := by rw [h1]; omega
    rw [Decrease, if_pos hpos]
    simp only [CanCreate, h1, h2]
    have : (M : Int) - 1 < (M : Int) := by omega
    simp [this]
  · intro r ops
    have key : ∀ (ops' : List ResOp) (t : ResourceM),
        0 ≤ t.current → 0 ≤ (applyResOps t ops').current := by
      intro ops'
      induction ops' with
      | nil => intro t ht; exact ht
      | cons op rest ih =>
        intro t ht
        rw [applyResOps]
        apply ih
        cases op with
        | inc => simp only [applyResOp, Increase]; omega
        | dec =>
          simp only [applyResOp, Decrease]
          by_cases hc : 0 < t.current
          · rw [if_pos hc]; simp only []; omega
          · rw [if_neg hc]; exact ht
    exact key ops r
  · intro r h
    simp [CanCreate, h]

/-- C4 witness: M = 2, a decrease-then-increase sequence from zero, and an
unbounded (max = 0) resource. -/
theorem resource_counter_semantics_witness :
    CanCreate (increaseN ⟨0, 2⟩ 2) = false
    ∧ CanCreate (Decrease (increaseN ⟨0, 2⟩ 2)) = true
    ∧ 0 ≤ (applyResOps ⟨0, 2⟩ [ResOp.dec, ResOp.inc]).current
    ∧ CanCreate ⟨5, 0⟩ = true :=
  ⟨resource_counter_semantics.1 2 (by decide),
   resource_counter_semantics.2.1 2 (by decide),
   resource_counter_semantics.2.2.1 ⟨0, 2⟩ [ResOp.dec, ResOp.inc] (by decide),
   resource_counter_semantics.2.2.2 ⟨5, 0⟩ (by decide)⟩

theorem acquire_snapView (s : ClusterStateM) (hf : FreshIds s) :
    snapView (stepCM s CMOp.acquire) s.nextId = some (Hosts s.hostSet) := by
  unfold snapView stepCM
  rw [List.find?_append]
  have hnone : s.snapshots.find? (fun p => p.1 == s.nextId) = none := by
    rw [List.find?_eq_none]
    intro p hp
    have hlt := hf p hp
    simp only [beq_iff_eq]
    omega
  rw [hnone]
  simp [Hosts]

theorem snapView_step_preserved (s : ClusterStateM) (id : Nat)
    (v : List HostM) (op : CMOp) (hv : snapView s id = some v)
    (hop : op ≠ CMOp.release id) :
    snapView (stepCM s op) id = some v := by
  cases op with
  | update newHosts => exact hv
  | remove addrs => exact hv
  | acquire =>
    unfold snapView stepCM
    rw [List.find?_append]
    unfold snapView at hv
    rcases Option.map_eq_some'.1 hv with ⟨pr, hfind, hpr⟩
    rw [hfind]
    simp [hpr]
  | release i =>
    have hne : i ≠ id := fun he => hop (by rw [he])
    unfold snapView stepCM
    rw [find?_filter_of_imp]
    · exact hv
    · intro x hx
      simp only [beq_iff_eq] at hx
      simp only [decide_eq_true_eq]
      omega

/-- C1: a snapshot view, once acquired, is preserved by every later
operation that does not release it (no operation mutates the membership
observed through an already-acquired snapshot); a snapshot acquired
before an update observes the acquisition-time membership; one acquired
after an UpdateHosts observes the post-update membership. -/
theorem snapshot_isolation :
    (∀ (s : ClusterStateM) (id : Nat) (v : List HostM) (ops : List CMOp),
        snapView s id = some v → CMOp.release id ∉ ops →
        snapView (applyCMOps s ops) id = some v)
    ∧ (∀ s : ClusterStateM, FreshIds s →
        snapView (stepCM s CMOp.acquire) s.nextId = some (Hosts s.hostSet))
    ∧ (∀ (s : ClusterStateM) (newHosts : List HostM), FreshIds s →
        snapView (stepCM (stepCM s (CMOp.update newHosts)) CMOp.acquire)
            s.nextId
          = some (Hosts (UpdateHosts s.hostSet newHosts))) := by
  refine ⟨?_, ?_, ?_⟩
  · intro s id v ops
    induction ops generalizing s with
    | nil => intro hv _; exact hv
    | cons op rest ih =>
      intro hv hnot
      rw [applyCMOps]
      apply ih
      · exact snapView_step_preserved s id v op hv
          (fun he => hnot (he ▸ List.mem_cons_self _ _))
      · intro hmem
        exact hnot (List.mem_cons_of_mem _ hmem)
  · intro s hf
    exact acquire_snapView s hf
  · intro s newHosts hf
    have hf' : FreshIds (stepCM s (CMOp.update newHosts)) := fun p hp => hf p hp
    exact acquire_snapView _ hf'

/-- C1 witness: a held snapshot (id 0) survives an update, another
acquisition and an unrelated release unchanged; fresh acquisitions before
and after an update observe the respective memberships. -/
theorem snapshot_isolation_witness :
    snapView
        (applyCMOps ⟨⟨[⟨"h1:80", [], 1, 0⟩]⟩, [(0, [⟨"h1:80", [], 1, 0⟩])], 1⟩
          [CMOp.update [⟨"h2:80", [], 1, 0⟩], CMOp.acquire, CMOp.release 1])
        0 = some [⟨"h1:80", [], 1, 0⟩]
    ∧ snapView
        (stepCM ⟨⟨[⟨"h1:80", [], 1, 0⟩]⟩, [(0, [⟨"h1:80", [], 1, 0⟩])], 1⟩
          CMOp.acquire) 1
        = some (Hosts (⟨[⟨"h1:80", [], 1, 0⟩]⟩ : HostSetM))
    ∧ snapView
        (stepCM
          (stepCM ⟨⟨[⟨"h1:80", [], 1, 0⟩]⟩, [(0, [⟨"h1:80", [], 1, 0⟩])], 1⟩
            (CMOp.update [⟨"h2:80", [], 1, 0⟩]))
          CMOp.acquire) 1
        = some (Hosts (UpdateHosts ⟨[⟨"h1:80", [], 1, 0⟩]⟩
            [⟨"h2:80", [], 1, 0⟩])) :=
  ⟨snapshot_isolation.1
      ⟨⟨[⟨"h1:80", [], 1, 0⟩]⟩, [(0, [⟨"h1:80", [], 1, 0⟩])], 1⟩ 0
      [⟨"h1:80", [], 1, 0⟩]
      [CMOp.update [⟨"h2:80", [], 1, 0⟩], CMOp.acquire, CMOp.release 1]
      (by decide) (by decide),
   snapshot_isolation.2.1
      ⟨⟨[⟨"h1:80", [], 1, 0⟩]⟩, [(0, [⟨"h1:80", [], 1, 0⟩])], 1⟩ (by decide),
   snapshot_isolation.2.2
      ⟨⟨[⟨"h1:80", [], 1, 0⟩]⟩, [(0, [⟨"h1:80", [], 1, 0⟩])], 1⟩
      [⟨"h2:80", [], 1, 0⟩] (by decide)⟩

theorem hostMatchesDim_iff (h : HostM) (criteria : List (String × String))
    (dim : List String) :
    hostMatchesDim h criteria dim = true ↔
      ∀ k ∈ dim, ∃ v, lookupStr criteria k = some v
        ∧ lookupStr h.metadata k = some v := by
  unfold hostMatchesDim
  rw [List.all_eq_true]
  constructor
  · intro H k hk
    have hkk := H k hk
    cases hc : lookupStr criteria k with
    | none => rw [hc] at hkk; simp at hkk
    | some v =>
      rw [hc] at hkk
      exact ⟨v, rfl, by simpa using hkk⟩
  · intro H k hk
    rcases H k hk with ⟨v, hc, hm⟩
    rw [hc]
    simpa using hm

/-- C6: IsExistsHosts(criteria) is true iff some healthy host exists
whose metadata holds, for every key of some configured SubsetKeys
dimension, exactly the value the criteria request for that key. -/
theorem isExistsHosts_characterization (snap : SnapshotM)
    (criteria : List (String × String)) :
    IsExistsHosts snap criteria = true ↔
      ∃ h ∈ HealthyHosts snap.hostSet,
        ∃ dim ∈ snap.subsetKeySets,
          ∀ k ∈ dim, ∃ v, lookupStr criteria k = some v
            ∧ lookupStr h.metadata k = some v := by
  unfold IsExistsHosts narrowedHosts
  rw [Bool.not_eq_true', List.isEmpty_eq_false, ← List.length_pos,
    List.length_pos_iff_exists_mem]
  constructor
  · rintro ⟨x, hx⟩
    rcases List.mem_filter.1 hx with ⟨hmem, hpred⟩
    rcases List.any_eq_true.1 hpred with ⟨dim, hdim, hmatch⟩
    exact ⟨x, hmem, dim, hdim, (hostMatchesDim_iff x criteria dim).1 hmatch⟩
  · rintro ⟨h, hmem, dim, hdim, hall⟩
    exact ⟨h, List.mem_filter.2 ⟨hmem, List.any_eq_true.2
      ⟨dim, hdim, (hostMatchesDim_iff h criteria dim).2 hall⟩⟩⟩

/-- C7: when subset load balancing is enabled and metadata narrowing of
HealthyHosts() yields no host, the candidate set handed to base selection
is decided solely by the FallbackPolicy: NoFallback yields the none
sentinel, AnyEndpoint the full HealthyHosts(), DefaultSubset the
configured DefaultSubset's host list. -/
theorem fallbackPolicy_outcome (snap : SnapshotM)
    (criteria : List (String × String))
    (hen : snap.subsetEnabled = true)
    (hempty : narrowedHosts snap criteria = []) :
    (snap.fallbackPolicy = FallBackPolicy.NoFallback →
        candidateSet snap criteria = none)
    ∧ (snap.fallbackPolicy = FallBackPolicy.AnyEndpoint →
        candidateSet snap criteria = some (HealthyHosts snap.hostSet))
    ∧ (snap.fallbackPolicy = FallBackPolicy.DefaultSubset →
        candidateSet snap criteria = some (defaultSubsetHostList snap)) := by
  unfold candidateSet
  rw [hen, hempty]
  refine ⟨?_, ?_, ?_⟩ <;> intro hp <;> rw [hp] <;> simp

/-- C7 witness: an enabled subset configuration over an empty host set
(so narrowing yields no host) with the NoFallback policy returns the none
sentinel. -/
theorem fallbackPolicy_outcome_witness :
    candidateSet ⟨⟨[]⟩, true, FallBackPolicy.NoFallback, [], [["zone"]]⟩
        [("zone", "a")] = none :=
  (fallbackPolicy_outcome ⟨⟨[]⟩, true, FallBackPolicy.NoFallback, [], [["zone"]]⟩
      [("zone", "a")] (by decide) (by decide)).1 rfl

theorem chooseSeqCluster_of_candidate (snap : SnapshotM)
    (criteria : List (String × String)) (hosts : List HostM)
    (hc : candidateSet snap criteria = some hosts) :
    ∀ (n : Nat) (st : RRState),
      chooseSeqCluster snap criteria st n = chooseSeqRR hosts st n := by
  intro n
  induction n with
  | zero => intro st; rfl
  | succ n ih =>
    intro st
    rw [chooseSeqCluster, chooseSeqRR]
    simp only [chooseHostCluster, hc]
    rw [ih]

/-- C8: with lbType RoundRobin, subset load balancing disabled and the
healthy host list [h1, h2, h3], six consecutive ChooseHost calls by one
caller with no metadata criteria return h1, h2, h3, h1, h2, h3. -/
theorem roundRobin_sequence (h1 h2 h3 : HostM)
    (e1 : h1.healthFlag = 0) (e2 : h2.healthFlag = 0)
    (e3 : h3.healthFlag = 0) :
    chooseSeqCluster
      ⟨⟨[h1, h2, h3]⟩, false, FallBackPolicy.NoFallback, [], []⟩ [] ⟨0⟩ 6
      = [some h1, some h2, some h3, some h1, some h2, some h3] := by
  have hc : candidateSet
      ⟨⟨[h1, h2, h3]⟩, false, FallBackPolicy.NoFallback, [], []⟩ []
      = some [h1, h2, h3] := by
    simp [candidateSet, HealthyHosts, Health, e1, e2, e3]
  rw [chooseSeqCluster_of_candidate _ _ _ hc]
  norm_num [chooseSeqRR, chooseHostRR]

/-- C8 witness: three concrete healthy hosts cycle in list order over six
calls. -/
theorem roundRobin_sequence_witness :
    chooseSeqCluster
      ⟨⟨[⟨"h1:80", [], 1, 0⟩, ⟨"h2:80", [], 1, 0⟩, ⟨"h3:80", [], 1, 0⟩]⟩,
        false, FallBackPolicy.NoFallback, [], []⟩ [] ⟨0⟩ 6
      = [some ⟨"h1:80", [], 1, 0⟩, some ⟨"h2:80", [], 1, 0⟩,
         some ⟨"h3:80", [], 1, 0⟩, some ⟨"h1:80", [], 1, 0⟩,
         some ⟨"h2:80", [], 1, 0⟩, some ⟨"h3:80", [], 1, 0⟩] :=
  roundRobin_sequence ⟨"h1:80", [], 1, 0⟩ ⟨"h2:80", [], 1, 0⟩
    ⟨"h3:80", [], 1, 0⟩ rfl rfl rfl

theorem removePC_subset :
    ∀ (names registry : List String) (x : String),
      x ∈ (RemovePrimaryCluster registry names).1 → x ∈ registry := by
  intro names
  induction names with
  | nil =>
    intro registry x h
    rw [RemovePrimaryCluster] at h
    exact h
  | cons n rest ih =>
    intro registry x h
    rw [RemovePrimaryCluster] at h
    by_cases hc : registry.contains n = true
    · rw [if_pos hc] at h
      exact List.mem_of_mem_filter (ih _ x h)
    · rw [if_neg hc] at h
      exact ih _ x h

theorem removePC_removed :
    ∀ (names registry : List String) (n : String),
      n ∈ names → n ∉ (RemovePrimaryCluster registry names).1 := by
  intro names
  induction names with
  | nil => intro registry n h; simp at h
  | cons m rest ih =>
    intro registry n hmem
    rw [RemovePrimaryCluster]
    by_cases hc : registry.contains m = true
    · rw [if_pos hc]
      rcases List.mem_cons.1 hmem with he | hr
      · subst he
        intro hfin
        have hsub := removePC_subset rest _ n hfin
        rcases List.mem_filter.1 hsub with ⟨_, hd⟩
        simp at hd
      · exact ih _ n hr
    · rw [if_neg hc]
      rcases List.mem_cons.1 hmem with he | hr
      · subst he
        intro hfin
        exact (by simpa using hc : n ∉ registry)
          (removePC_subset rest registry n hfin)
      · intro hfin
        exact ih registry n hr hfin

theorem removePC_errors :
    ∀ (names registry : List String) (n : String),
      n ∈ names → n ∉ registry → n ∈ (RemovePrimaryCluster registry names).2 := by
  intro names
  induction names with
  | nil => intro registry n h; simp at h
  | cons m rest ih =>
    intro registry n hmem hnr
    rw [RemovePrimaryCluster]
    by_cases hc : registry.contains m = true
    · rw [if_pos hc]
      rcases List.mem_cons.1 hmem with he | hr
      · subst he
        exact absurd (by simpa using hc : n ∈ registry) hnr
      · apply ih _ n hr
        intro hf
        exact hnr (List.mem_of_mem_filter hf)
    · rw [if_neg hc]
      rcases List.mem_cons.1 hmem with he | hr
      · subst he
        exact List.mem_cons_self _ _
      · exact List.mem_cons_of_mem _ (ih registry n hr hnr)

/-- C9: RemovePrimaryCluster collects a NotFound error for every given
name absent from the registry (never short-circuiting), and every given
name that did exist is removed, so ClusterExist is false for each given
name afterwards. -/
theorem removePrimaryCluster_semantics (registry names : List String) :
    (∀ n ∈ names, n ∉ registry →
        n ∈ (RemovePrimaryCluster registry names).2)
    ∧ (∀ n ∈ names,
        ClusterExist (RemovePrimaryCluster registry names).1 n = false) := by
  constructor
  · intro n hn hnr
    exact removePC_errors names registry n hn hnr
  · intro n hn
    have hnot := removePC_removed names registry n hn
    unfold ClusterExist
    cases hcc : (RemovePrimaryCluster registry names).1.contains n with
    | false => rfl
    | true => exact absurd (by simpa using hcc) hnot

/-- C9 witness: removing ["x", "a"] from the registry ["a", "b"] reports
NotFound for the unknown "x" while still removing the existing "a". -/
theorem removePrimaryCluster_semantics_witness :
    "x" ∈ (RemovePrimaryCluster ["a", "b"] ["x", "a"]).2
    ∧ ClusterExist (RemovePrimaryCluster ["a", "b"] ["x", "a"]).1 "a"
        = false :=
  ⟨(removePrimaryCluster_semantics ["a", "b"] ["x", "a"]).1 "x"
      (by decide) (by decide),
   (removePrimaryCluster_semantics ["a", "b"] ["x", "a"]).2 "a" (by decide)⟩

end Upstream
